import Mathlib

/-!
Verification of the command dispatch and argument-extension core of the
conan CLI excerpt (src/conans/client/command.py), as a shallow embedding.

Modelling conventions:
* Python exceptions escaping a handler become an explicit sum type; a
  handler is a function from its remaining argument list to an optional
  raised exception.
* All user-facing output is recorded as a list of events.
* Machine floats of difflib (similarity scores) are modelled as exact
  rationals represented by numerator/denominator pairs of naturals;
  comparisons are by cross multiplication.
* Strings are compared with an executable lexicographic order on their
  character lists (code-point order, as Python does).
-/

/-- Modelled from the spec: conans/cli/exit_codes.py is not part of the
excerpt; section 6 of the spec fixes 0 for Success and distinct nonzero
implementation-defined constants for the error outcomes. -/
def SUCCESS : Int := 0

/-- Modelled from the spec: the GeneralError exit constant (distinct, nonzero). -/
def ERROR_GENERAL : Int := 1

/-- Modelled from the spec: the InvalidConfiguration exit constant. -/
def ERROR_INVALID_CONFIGURATION : Int := 6

/-- Modelled from the spec: the InvalidSystemRequirements exit constant. -/
def ERROR_INVALID_SYSTEM_REQUIREMENTS : Int := 7

/-- The exception kinds that can escape a command handler into Command.run,
one constructor per distinct except clause of the source (KeyboardInterrupt,
SystemExit with its carried code, ConanInvalidConfiguration,
ConanInvalidSystemRequirements, ConanException, and any other Exception). -/
inductive Exc where
  | keyboardInterrupt
  | systemExit (code : Int)
  | invalidConfiguration (msg : String)
  | invalidSystemRequirements (msg : String)
  | conanError (msg : String)
  | otherError
deriving DecidableEq, Repr

/-- One user-visible output action of the dispatch layer: an info line from
the leveled sink, an error line, the sanitized-message error of the generic
except-Exception clause, a logger.error call, or the raw traceback print. -/
inductive OutEvent where
  | info (s : String)
  | errorMsg (s : String)
  | errorSafe
  | logError
  | printTraceback
deriving DecidableEq, Repr

/-- Is the event an info-level line of the output sink? -/
def isInfo : OutEvent → Bool
  | OutEvent.info _ => true
  | _ => false

/-- A command handler: it receives the remaining CLI tokens and either
returns normally or raises one of the exception kinds. -/
def Handler := List String → Option Exc

/-- A candidate method of the Command container as inspect.getmembers sees
it: its attribute name, its docstring (None or a string), and its body. -/
structure Method where
  name : String
  doc : Option String
  handler : Handler

/-- The outcome of one Command.run invocation: the returned exit code and
the recorded output events. -/
structure RunResult where
  retCode : Int
  events : List OutEvent
deriving DecidableEq, Repr

/-! ### Executable string primitives -/

/-- Does the first character list start with the second? -/
def startsWithL : List Char → List Char → Bool
  | _, [] => true
  | [], _ :: _ => false
  | a :: as, b :: bs => a = b && startsWithL as bs

/-- Python str.startswith, executably on the character lists. -/
def strStartsWith (s pre : String) : Bool := startsWithL s.data pre.data

/-- Python str.endswith, executably on the reversed character lists. -/
def strEndsWith (s suf : String) : Bool :=
  startsWithL s.data.reverse suf.data.reverse

/-! ### Argument extension policies (Extender, OnceArgument) -/

/-- A value held by an argparse destination: None, a scalar string, or a
list of strings. -/
inductive Dest where
  | none
  | str (s : String)
  | list (xs : List String)
deriving DecidableEq, Repr

/-- The `values` argument argparse passes to an action call: a scalar
string, a list of strings (nargs greater than one), or None (an optional
flag given without a value). -/
inductive ArgValue where
  | scalar (s : String)
  | seq (xs : List String)
  | noneV
deriving DecidableEq, Repr

/-- Python hasattr(dest, 'extend'): only list values have extend. -/
def hasExtendMethod : Dest → Bool
  | Dest.list _ => true
  | _ => false

/-- The elements of a list-valued destination (unused on other shapes). -/
def destElems : Dest → List String
  | Dest.list xs => xs
  | _ => []

/-- The parser-visible state an Extender call touches: the namespace value
of its destination and the action's current default (which
parser.set_defaults rewrites to None on the first accumulation). -/
structure ExtState where
  dest : Dest
  dflt : Dest
deriving DecidableEq, Repr

/-- Extender.__call__ (src/conans/client/command.py lines 33-50): if the
destination has no extend method or still equals the default, replace it
with a fresh empty list and set the default to None; then append a scalar
string, extend with a (truthy) sequence, or ignore a None value. -/
def Extender_call (st : ExtState) (values : ArgValue) : ExtState :=
  let reset : Bool := !(hasExtendMethod st.dest) || (st.dest = st.dflt)
  let cur : List String := if reset then [] else destElems st.dest
  let dflt : Dest := if reset then Dest.none else st.dflt
  let cur2 : List String :=
    match values with
    | ArgValue.scalar s => cur ++ [s]
    | ArgValue.seq ys => if ys.isEmpty then cur else cur ++ ys
    | ArgValue.noneV => cur
  ExtState.mk (Dest.list cur2) dflt

/-- The elements one flag occurrence contributes to an Extender
destination: one element for a scalar, all elements for a sequence, none
for a None value. -/
def contrib : ArgValue → List String
  | ArgValue.scalar s => [s]
  | ArgValue.seq ys => ys
  | ArgValue.noneV => []

/-- Concatenation of the contributions of a list of occurrences, in
encounter order. -/
def contribConcat : List ArgValue → List String
  | [] => []
  | v :: vs => contrib v ++ contribConcat vs

/-- OnceArgument.__call__ (src/conans/client/command.py lines 57-61):
raise argparse.ArgumentError when the namespace value is not None while the
action's default is None; otherwise assign the incoming value. -/
def OnceArgument_call (option_string : String) (dflt dest : Dest) (values : String) :
    Except String Dest :=
  if dest ≠ Dest.none ∧ dflt = Dest.none then
    Except.error (option_string ++ " can only be specified once")
  else
    Except.ok (Dest.str values)

/-! ### Command registry (Command._commands) -/

/-- A registry: the ordered key-value pairs of the Python dict built by
Command._commands. -/
abbrev Registry := List (String × Handler)

/-- The key list of a registry, in insertion order. -/
def keys (d : Registry) : List String := d.map Prod.fst

/-- Python dict lookup: the value of the first (and in a dict, only) pair
whose key matches. -/
def lookupD : Registry → String → Option Handler
  | [], _ => Option.none
  | (k, v) :: rest, q => if q = k then Option.some v else lookupD rest q

/-- Does the registry already bind this key? -/
def containsKey : Registry → String → Bool
  | [], _ => false
  | (k, _) :: rest, q => (q = k) || containsKey rest q

/-- Python dict assignment d[k] = v: replace in place when the key exists,
append otherwise. -/
def dictInsert (d : Registry) (k : String) (v : Handler) : Registry :=
  if containsKey d k then
    d.map (fun kv => if kv.1 = k then (k, v) else kv)
  else
    d ++ [(k, v)]

/-- Python truthiness-and-marker test of Command._commands: the docstring
is present, non-empty and does not start with HIDDEN. -/
def docVisible : Option String → Bool
  | Option.none => false
  | Option.some d => !(d == "") && !(strStartsWith d "HIDDEN")

/-- The fixed name rewrite of Command._commands: the method export_pkg is
exposed as export-pkg. -/
def publicName (n : String) : String :=
  if n = "export_pkg" then "export-pkg" else n

/-- Does Command._commands include this candidate? Name not starting with
the underscore marker, and a visible docstring. -/
def includedB (m : Method) : Bool :=
  !(strStartsWith m.name "_") && docVisible m.doc

/-- One loop iteration of Command._commands over a candidate method. -/
def commandStep (acc : Registry) (m : Method) : Registry :=
  if strStartsWith m.name "_" then acc
  else if docVisible m.doc then dictInsert acc (publicName m.name) m.handler
  else acc

/-- Command._commands (src/conans/client/command.py lines 719-731): walk
the candidate methods in order and collect the visible public ones into a
dict, renaming export_pkg to export-pkg. -/
def _commands (ms : List Method) : Registry :=
  List.foldl commandStep [] ms

/-! ### Executable string order (for Python sorted on strings) -/

/-- Lexicographic order on character lists by code point, as Python
compares strings. -/
def lexLe : List Char → List Char → Bool
  | [], _ => true
  | _ :: _, [] => false
  | a :: as, b :: bs =>
    if a = b then lexLe as bs else decide (a < b)

/-- Python string comparison a <= b. -/
def strLe (a b : String) : Bool := lexLe a.data b.data

/-! ### A stable insertion sort over a Bool comparator -/

/-- Insert a into l before the first element b with le a b. -/
def insertB (le : α → α → Bool) (a : α) : List α → List α
  | [] => [a]
  | b :: l => if le a b then a :: b :: l else b :: insertB le a l

/-- Stable insertion sort with comparator le; with a non-strict comparator
it keeps the input order of tied elements, like Python sorted. -/
def sortB (le : α → α → Bool) : List α → List α
  | [] => []
  | b :: l => insertB le b (sortB le l)

/-! ### difflib similarity (Modelled from the spec) -/

/-- Length of the common prefix of two character lists. -/
def cpl : List Char → List Char → Nat
  | a :: as, b :: bs => if a = b then cpl as bs + 1 else 0
  | _, _ => 0

/-- Modelled from the spec: difflib SequenceMatcher find_longest_match
with no junk. The longest common substring of a and b as (i, j, k) with k
its length; ties pick the smallest start in a, then in b, which is what
the CPython scan order produces. k = 0 when there is no common character. -/
def bestMatch (a b : List Char) : Nat × Nat × Nat :=
  (List.range a.length).foldl
    (fun best i =>
      (List.range b.length).foldl
        (fun best j =>
          let k := cpl (a.drop i) (b.drop j)
          if best.2.2 < k then (i, j, k) else best)
        best)
    (0, 0, 0)

/-- Modelled from the spec: the total size of the matching blocks of
difflib SequenceMatcher (recursively split around the longest match). The
fuel argument only bounds the recursion depth; the first list strictly
shrinks at every level, so a.length + 1 fuel is always enough. -/
def matchSumF : Nat → List Char → List Char → Nat
  | 0, _, _ => 0
  | Nat.succ fuel, a, b =>
    let t := bestMatch a b
    if t.2.2 = 0 then 0
    else
      matchSumF fuel (a.take t.1) (b.take t.2.1) + t.2.2 +
        matchSumF fuel (a.drop (t.1 + t.2.2)) (b.drop (t.2.1 + t.2.2))

/-- Total matched characters between the two strings (seq1, seq2). -/
def matchTotal (x w : String) : Nat := matchSumF (x.length + 1) x.data w.data

/-- Modelled from the spec: SequenceMatcher ratio 2*M/T as an exact
fraction (numerator, denominator); 1 when both strings are empty, exactly
as difflib defines it. The denominator is always positive. -/
def score (x w : String) : Nat × Nat :=
  let T := x.length + w.length
  if T = 0 then (1, 1) else (2 * matchTotal x w, T)

/-- The similarity of x to w as a rational on the 0-1 scale. -/
def ratioQ (x w : String) : ℚ :=
  ((score x w).1 : ℚ) / ((score x w).2 : ℚ)

/-- Descending comparator on scored candidates used to order suggestions:
p may precede q when the score of q is at most the score of p (cross
multiplied). Non-strict, so the stable sort keeps iteration order among
ties. Modelled from the spec: ties broken by registry iteration order. -/
def leDesc (p q : (Nat × Nat) × String) : Bool :=
  decide (q.1.1 * p.1.2 ≤ p.1.1 * q.1.2)

/-- Modelled from the spec: difflib.get_close_matches(word, possibilities,
n, cutoff): keep the possibilities whose similarity to word is at least
cutoff (the float cutoff is the exact rational cn/cd), order them by
descending similarity, and return the first n. -/
def get_close_matches (word : String) (possibilities : List String)
    (n : Nat) (cn cd : Nat) : List String :=
  let scored := possibilities.filterMap
    (fun x =>
      if cn * (score x word).2 ≤ cd * (score x word).1 then
        Option.some (score x word, x)
      else Option.none)
  ((sortB leDesc scored).take n).map Prod.snd

/-- The matches Command._print_similar computes for an unknown command:
get_close_matches over the registry keys with n = 5 and cutoff 0.75
(the exact rational 3/4). -/
def similarMatches (ms : List Method) (command : String) : List String :=
  get_close_matches command (keys (_commands ms)) 5 3 4

/-- Command._print_similar (src/conans/client/command.py lines 733-750):
no output when there is no match, otherwise a header line, one indented
line per match, and a blank line, all info-level. -/
def _print_similar (ms : List Method) (command : String) : List OutEvent :=
  let found := similarMatches ms command
  if found.length = 0 then []
  else
    (if 1 < found.length then [OutEvent.info "The most similar commands are"]
     else [OutEvent.info "The most similar command is"]) ++
      found.map (fun m => OutEvent.info ("    " ++ m)) ++ [OutEvent.info ""]

/-! ### Dispatcher (Command.run) -/

/-- The try block of Command.run: take the command token (IndexError on an
empty vector becomes a generic exception), resolve it in the registry
(KeyError likewise), and invoke the handler on the remaining tokens. -/
def runBody (ms : List Method) (argv : List String) : Option Exc :=
  match argv with
  | [] => Option.some Exc.otherError
  | tok :: rest =>
    match lookupD (_commands ms) tok with
    | Option.none => Option.some Exc.otherError
    | Option.some h => h rest

/-- The except clauses of Command.run, in source order: KeyboardInterrupt
is swallowed to SUCCESS; SystemExit returns its own carried code, echoing
it via an error line when nonzero; the two invalid-state exceptions and
ConanException map to their constants; any other exception prints the
traceback and a sanitized error, returning ERROR_GENERAL. -/
def handleExc : Option Exc → RunResult
  | Option.none => RunResult.mk SUCCESS []
  | Option.some Exc.keyboardInterrupt => RunResult.mk SUCCESS [OutEvent.logError]
  | Option.some (Exc.systemExit c) =>
    if c ≠ 0 then
      RunResult.mk c [OutEvent.logError,
        OutEvent.errorMsg ("Exiting with code: " ++ toString c)]
    else RunResult.mk c []
  | Option.some (Exc.invalidConfiguration s) =>
    RunResult.mk ERROR_INVALID_CONFIGURATION [OutEvent.errorMsg s]
  | Option.some (Exc.invalidSystemRequirements s) =>
    RunResult.mk ERROR_INVALID_SYSTEM_REQUIREMENTS [OutEvent.errorMsg s]
  | Option.some (Exc.conanError s) =>
    RunResult.mk ERROR_GENERAL [OutEvent.errorMsg s]
  | Option.some Exc.otherError =>
    RunResult.mk ERROR_GENERAL [OutEvent.printTraceback, OutEvent.errorSafe]

/-- Command.run (src/conans/client/command.py lines 757-792): run the try
block and convert whatever escapes it to an exit code and output events. -/
def run (ms : List Method) (argv : List String) : RunResult :=
  handleExc (runBody ms argv)

/-! ### JSON result serialization of Command.inspect -/

/-- A Python value the inspect result can contain: strings, integers,
string sets, lists, and string-keyed dicts. -/
inductive PyVal where
  | pstr (s : String)
  | pint (n : Int)
  | pset (xs : List String)
  | plist (xs : List PyVal)
  | pdict (kvs : List (String × PyVal))

/-- A JSON value, the target of json.dumps: no set shape exists here. -/
inductive JVal where
  | jstr (s : String)
  | jint (n : Int)
  | jarr (xs : List JVal)
  | jobj (kvs : List (String × JVal))

mutual

/-- json.dumps with the dump_custom_types default of Command.inspect
(src/conans/client/command.py lines 146-151): a set is rendered as the
sorted list of its elements; lists and dicts are rendered recursively. -/
def encode : PyVal → JVal
  | PyVal.pstr s => JVal.jstr s
  | PyVal.pint n => JVal.jint n
  | PyVal.pset xs => JVal.jarr ((sortB strLe xs).map JVal.jstr)
  | PyVal.plist xs => JVal.jarr (encodeList xs)
  | PyVal.pdict kvs => JVal.jobj (encodePairs kvs)

/-- encode mapped over a list. -/
def encodeList : List PyVal → List JVal
  | [] => []
  | v :: vs => encode v :: encodeList vs

/-- encode mapped over dict pairs. -/
def encodePairs : List (String × PyVal) → List (String × JVal)
  | [] => []
  | (k, v) :: rest => (k, encode v) :: encodePairs rest

end

/-- Modelled from the spec: os.path.isabs on the posix form used by the
repository paths: the path starts with a slash. -/
def isabs (p : String) : Bool := strStartsWith p "/"

/-- Modelled from the spec: os.path.join(a, b) for the two-argument posix
case: b when b is absolute, otherwise a, a separator if a does not already
end with one, then b. -/
def joinPath (a b : String) : String :=
  if isabs b then b
  else if a = "" || strEndsWith a "/" then a ++ b
  else a ++ "/" ++ b

/-- The output-file resolution of Command.inspect
(src/conans/client/command.py lines 153-157): a relative path is joined to
the current working directory, an absolute path is used as given. -/
def json_output_file (cwd p : String) : String :=
  if !(isabs p) then joinPath cwd p else p

/-! ### Proof helpers and concrete fixtures -/

/-- Does this candidate method land in the registry under key q? -/
def matchesQ (q : String) (m : Method) : Bool :=
  includedB m && (publicName m.name == q)

/-- The last candidate of the list that the registry binds to key q (dict
assignment lets later candidates overwrite earlier ones). -/
def lastMatch (q : String) : List Method → Option Method
  | [] => Option.none
  | m :: rest =>
    match lastMatch q rest with
    | Option.some m2 => Option.some m2
    | Option.none => if matchesQ q m then Option.some m else Option.none

/-- A handler that returns normally. -/
def hNone : Handler := fun _ => Option.none

/-- A handler that raises KeyboardInterrupt. -/
def hInterrupt : Handler := fun _ => Option.some Exc.keyboardInterrupt

/-- A handler that raises SystemExit with a code distinct from both 0 and
the GeneralError constant. -/
def hBoom : Handler := fun _ => Option.some (Exc.systemExit (ERROR_GENERAL + 1))

/-- A concrete candidate container: a private method, visible commands
(one of them export_pkg), a hidden one, one raising KeyboardInterrupt and
one raising SystemExit. -/
def demoMs : List Method :=
  [Method.mk "_private" (Option.some "Docs") hNone,
   Method.mk "build" (Option.some "Build docs") hNone,
   Method.mk "export_pkg" (Option.some "Export docs") hNone,
   Method.mk "secret" (Option.some "HIDDEN: internal") hNone,
   Method.mk "cancelme" (Option.some "Cancel docs") hInterrupt,
   Method.mk "boom" (Option.some "Boom docs") hBoom]

/-! ### Permutation and sortedness of the Bool insertion sort -/

theorem insertB_perm (le : α → α → Bool) (a : α) :
    ∀ l : List α, List.Perm (insertB le a l) (a :: l) := by
  intro l
  induction l with
  | nil => exact List.Perm.refl _
  | cons b t ih =>
    rw [insertB]
    split
    · exact List.Perm.refl _
    · exact (ih.cons b).trans (List.Perm.swap a b t)

theorem sortB_perm (le : α → α → Bool) : ∀ l : List α, List.Perm (sortB le l) l := by
  intro l
  induction l with
  | nil => exact List.Perm.refl _
  | cons b t ih =>
    rw [sortB]
    exact (insertB_perm le b (sortB le t)).trans (ih.cons b)

theorem mem_insertB {le : α → α → Bool} {a x : α} {l : List α} :
    x ∈ insertB le a l ↔ x = a ∨ x ∈ l := by
  rw [(insertB_perm le a l).mem_iff, List.mem_cons]

theorem mem_sortB {le : α → α → Bool} {x : α} {l : List α} :
    x ∈ sortB le l ↔ x ∈ l :=
  (sortB_perm le l).mem_iff

theorem pairwise_insertB (le : α → α → Bool) (a : α) :
    ∀ l : List α,
      (∀ b ∈ l, le a b = true ∨ le b a = true) →
      (∀ b ∈ l, le a b = true → ∀ c ∈ l, le b c = true → le a c = true) →
      List.Pairwise (fun x y => le x y = true) l →
      List.Pairwise (fun x y => le x y = true) (insertB le a l) := by
  intro l
  induction l with
  | nil =>
    intro _ _ _
    exact List.pairwise_singleton _ a
  | cons b t ih =>
    intro htot htr hp
    rcases List.pairwise_cons.mp hp with ⟨hb, hpt⟩
    rw [insertB]
    split
    · rename_i hab
      refine List.pairwise_cons.mpr ⟨?_, hp⟩
      intro x hx
      rcases List.mem_cons.mp hx with rfl | hx
      · exact hab
      · exact htr b (List.mem_cons_self b t) hab x (List.mem_cons_of_mem b hx) (hb x hx)
    · rename_i hab
      refine List.pairwise_cons.mpr ⟨?_, ?_⟩
      · intro x hx
        rcases mem_insertB.mp hx with rfl | hx
        · rcases htot b (List.mem_cons_self b t) with h | h
          · exact absurd h hab
          · exact h
        · exact hb x hx
      · refine ih ?_ ?_ hpt
        · intro c hc
          exact htot c (List.mem_cons_of_mem b hc)
        · intro c hc hac d hd hcd
          exact htr c (List.mem_cons_of_mem b hc) hac d (List.mem_cons_of_mem b hd) hcd

theorem pairwise_sortB (le : α → α → Bool) :
    ∀ l : List α,
      (∀ x ∈ l, ∀ y ∈ l, le x y = true ∨ le y x = true) →
      (∀ x ∈ l, ∀ y ∈ l, ∀ z ∈ l, le x y = true → le y z = true → le x z = true) →
      List.Pairwise (fun x y => le x y = true) (sortB le l) := by
  intro l
  induction l with
  | nil =>
    intro _ _
    exact List.Pairwise.nil
  | cons b t ih =>
    intro htot htr
    rw [sortB]
    refine pairwise_insertB le b (sortB le t) ?_ ?_ ?_
    · intro c hc
      exact htot b (List.mem_cons_self b t) c (List.mem_cons_of_mem b (mem_sortB.mp hc))
    · intro c hc hbc d hd hcd
      exact htr b (List.mem_cons_self b t) c (List.mem_cons_of_mem b (mem_sortB.mp hc))
        d (List.mem_cons_of_mem b (mem_sortB.mp hd)) hbc hcd
    · refine ih ?_ ?_
      · intro x hx y hy
        exact htot x (List.mem_cons_of_mem b hx) y (List.mem_cons_of_mem b hy)
      · intro x hx y hy z hz
        exact htr x (List.mem_cons_of_mem b hx) y (List.mem_cons_of_mem b hy)
          z (List.mem_cons_of_mem b hz)

/-! ### The lexicographic string order is total and transitive -/

theorem lexLe_total : ∀ a b : List Char, lexLe a b = true ∨ lexLe b a = true := by
  intro a
  induction a with
  | nil => intro b; exact Or.inl rfl
  | cons x xs ih =>
    intro b
    cases b with
    | nil => exact Or.inr rfl
    | cons y ys =>
      by_cases hxy : x = y
      · subst hxy
        simp only [lexLe, if_pos rfl]
        exact ih ys
      · rcases lt_trichotomy x y with h | h | h
        · refine Or.inl ?_
          simp only [lexLe, if_neg hxy, decide_eq_true_eq]
          exact h
        · exact absurd h hxy
        · refine Or.inr ?_
          simp only [lexLe, if_neg (Ne.symm hxy), decide_eq_true_eq]
          exact h

theorem lexLe_trans :
    ∀ a b c : List Char, lexLe a b = true → lexLe b c = true → lexLe a c = true := by
  intro a
  induction a with
  | nil => intro b c _ _; rfl
  | cons x xs ih =>
    intro b c hab hbc
    cases b with
    | nil =>
      simp only [lexLe] at hab
      exact Bool.noConfusion hab
    | cons y ys =>
      cases c with
      | nil =>
        simp only [lexLe] at hbc
        exact Bool.noConfusion hbc
      | cons z zs =>
        by_cases hxy : x = y <;> by_cases hyz : y = z
        · subst hxy; subst hyz
          simp only [lexLe, if_pos rfl] at hab hbc ⊢
          exact ih ys zs hab hbc
        · subst hxy
          simp only [lexLe, if_pos rfl, if_neg hyz, decide_eq_true_eq] at hbc
          simp only [lexLe, if_neg hyz, decide_eq_true_eq]
          exact hbc
        · subst hyz
          simp only [lexLe, if_neg hxy, decide_eq_true_eq] at hab
          simp only [lexLe, if_neg hxy, decide_eq_true_eq]
          exact hab
        · simp only [lexLe, if_neg hxy, decide_eq_true_eq] at hab
          simp only [lexLe, if_neg hyz, decide_eq_true_eq] at hbc
          have hxz : x < z := lt_trans hab hbc
          simp only [lexLe, if_neg (ne_of_lt hxz), decide_eq_true_eq]
          exact hxz

theorem strLe_total (a b : String) : strLe a b = true ∨ strLe b a = true :=
  lexLe_total a.data b.data

theorem strLe_trans {a b c : String} (h1 : strLe a b = true) (h2 : strLe b c = true) :
    strLe a c = true :=
  lexLe_trans a.data b.data c.data h1 h2

/-! ### Cross-multiplied fraction comparison -/

theorem crossLe_trans {xn xd yn yd zn zd : Nat} (hy : 0 < yd)
    (h1 : yn * xd ≤ xn * yd) (h2 : zn * yd ≤ yn * zd) : zn * xd ≤ xn * zd := by
  have key : zn * xd * yd ≤ xn * zd * yd := by
    calc zn * xd * yd = zn * yd * xd := by ring
      _ ≤ yn * zd * xd := Nat.mul_le_mul_right xd h2
      _ = yn * xd * zd := by ring
      _ ≤ xn * yd * zd := Nat.mul_le_mul_right zd h1
      _ = xn * zd * yd := by ring
  exact Nat.le_of_mul_le_mul_right key hy

theorem crossLe_iff_div_le {pn pd qn qd : Nat} (hp : 0 < pd) (hq : 0 < qd) :
    qn * pd ≤ pn * qd ↔ ((qn : ℚ) / (qd : ℚ) ≤ (pn : ℚ) / (pd : ℚ)) := by
  rw [div_le_div_iff (by exact_mod_cast hq) (by exact_mod_cast hp)]
  exact_mod_cast Iff.rfl

theorem score_den_pos (x w : String) : 0 < (score x w).2 := by
  unfold score
  by_cases h : x.length + w.length = 0
  · simp [h]
  · simp [h]
    omega

/-! ### Registry lookup lemmas -/

theorem lookupD_eq_none :
    ∀ (d : Registry) (q : String), containsKey d q = false → lookupD d q = Option.none := by
  intro d
  induction d with
  | nil => intro q _; rfl
  | cons kv rest ih =>
    obtain ⟨k0, v0⟩ := kv
    intro q h
    simp only [containsKey, Bool.or_eq_false_iff, decide_eq_false_iff_not] at h
    simp only [lookupD, if_neg h.1]
    exact ih q h.2

theorem lookupD_append_of_none :
    ∀ (d : Registry) (k : String) (v : Handler) (q : String),
      lookupD d q = Option.none →
      lookupD (d ++ [(k, v)]) q = if q = k then Option.some v else Option.none := by
  intro d
  induction d with
  | nil => intro k v q _; rfl
  | cons kv rest ih =>
    obtain ⟨k0, v0⟩ := kv
    intro k v q h
    simp only [lookupD] at h
    by_cases hq : q = k0
    · rw [if_pos hq] at h
      exact Option.noConfusion h
    · rw [if_neg hq] at h
      simp only [List.cons_append, lookupD, if_neg hq]
      exact ih k v q h

theorem lookupD_append_of_some :
    ∀ (d : Registry) (k : String) (v w : Handler) (q : String),
      lookupD d q = Option.some w →
      lookupD (d ++ [(k, v)]) q = Option.some w := by
  intro d
  induction d with
  | nil => intro k v w q h; exact Option.noConfusion h
  | cons kv rest ih =>
    obtain ⟨k0, v0⟩ := kv
    intro k v w q h
    simp only [lookupD] at h
    by_cases hq : q = k0
    · rw [if_pos hq] at h
      simp only [List.cons_append, lookupD, if_pos hq]
      exact h
    · rw [if_neg hq] at h
      simp only [List.cons_append, lookupD, if_neg hq]
      exact ih k v w q h

theorem lookupD_replace :
    ∀ (d : Registry) (k : String) (v : Handler) (q : String),
      lookupD (d.map (fun kv => if kv.1 = k then (k, v) else kv)) q =
        if q = k then (if containsKey d k then Option.some v else Option.none)
        else lookupD d q := by
  intro d
  induction d with
  | nil =>
    intro k v q
    simp [lookupD, containsKey]
  | cons kv rest ih =>
    obtain ⟨k0, v0⟩ := kv
    intro k v q
    rcases eq_or_ne k0 k with hk0 | hk0
    · subst hk0
      rw [List.map_cons]
      have hhead :
          (if ((k0, v0) : String × Handler).1 = k0 then (k0, v) else (k0, v0))
            = (k0, v) := by simp
      rw [hhead]
      by_cases hq : q = k0
      · subst hq
        simp [lookupD, containsKey]
      · simp only [lookupD, if_neg hq, ih]
    · rw [List.map_cons]
      have hhead :
          (if ((k0, v0) : String × Handler).1 = k then (k, v) else (k0, v0))
            = (k0, v0) := by simp [hk0]
      rw [hhead]
      by_cases hq : q = k0
      · have hqk : ¬(q = k) := fun h => hk0 (hq ▸ h)
        simp [lookupD, if_pos hq, if_neg hqk]
      · by_cases hqk : q = k
        · subst hqk
          have hd : decide (q = k0) = false := decide_eq_false hq
          simp only [lookupD, if_neg hq, if_pos rfl, ih, containsKey, hd]
          simp
        · simp only [lookupD, if_neg hq, if_neg hqk, ih]

theorem lookupD_dictInsert (d : Registry) (k : String) (v : Handler) (q : String) :
    lookupD (dictInsert d k v) q = if q = k then Option.some v else lookupD d q := by
  unfold dictInsert
  by_cases hc : containsKey d k = true
  · rw [if_pos hc, lookupD_replace, hc]
    simp
  · have hc' : containsKey d k = false := by simpa using hc
    rw [if_neg (by simp [hc'])]
    cases hl : lookupD d q with
    | none =>
      rw [lookupD_append_of_none d k v q hl]
    | some w =>
      rw [lookupD_append_of_some d k v w q hl]
      by_cases hq : q = k
      · subst hq
        rw [lookupD_eq_none d q hc'] at hl
        exact Option.noConfusion hl
      · simp [hq, hl]

/-! ### Characterizing the registry built by Command._commands -/

theorem lastMatch_sound :
    ∀ (ms : List Method) (q : String) (m2 : Method),
      lastMatch q ms = Option.some m2 → m2 ∈ ms ∧ matchesQ q m2 = true := by
  intro ms q
  induction ms with
  | nil => intro m2 h; exact Option.noConfusion h
  | cons m0 rest ih =>
    intro m2 h
    cases hr : lastMatch q rest with
    | some m3 =>
      simp only [lastMatch, hr] at h
      obtain rfl : m3 = m2 := Option.some.inj h
      have hs := ih m3 hr
      exact ⟨List.mem_cons_of_mem m0 hs.1, hs.2⟩
    | none =>
      simp only [lastMatch, hr] at h
      by_cases hm : matchesQ q m0 = true
      · rw [if_pos hm] at h
        injection h with h
        subst h
        exact ⟨List.mem_cons_self m0 rest, hm⟩
      · rw [if_neg hm] at h
        exact Option.noConfusion h

theorem lastMatch_none :
    ∀ (ms : List Method) (q : String),
      (∀ m ∈ ms, matchesQ q m = false) → lastMatch q ms = Option.none := by
  intro ms q
  induction ms with
  | nil => intro _; rfl
  | cons m rest ih =>
    intro h
    have hr : lastMatch q rest = Option.none :=
      ih (fun m2 hm2 => h m2 (List.mem_cons_of_mem m hm2))
    simp only [lastMatch, hr]
    simp [h m (List.mem_cons_self m rest)]

theorem lastMatch_mem :
    ∀ (ms : List Method) (q : String) (m : Method), m ∈ ms → matchesQ q m = true →
      ∃ m2, lastMatch q ms = Option.some m2 ∧ m2 ∈ ms ∧ matchesQ q m2 = true := by
  intro ms q
  induction ms with
  | nil => intro m hm _; exact absurd hm (List.not_mem_nil m)
  | cons m0 rest ih =>
    intro m hm hq
    rcases List.mem_cons.mp hm with rfl | hmr
    · cases hr : lastMatch q rest with
      | some m2 =>
        have hs := lastMatch_sound rest q m2 hr
        exact ⟨m2, by simp only [lastMatch, hr], List.mem_cons_of_mem m hs.1, hs.2⟩
      | none =>
        refine ⟨m, ?_, hm, hq⟩
        simp only [lastMatch, hr, if_pos hq]
    · obtain ⟨m2, h1, h2, h3⟩ := ih m hmr hq
      exact ⟨m2, by simp only [lastMatch, h1], List.mem_cons_of_mem m0 h2, h3⟩

theorem lookupD_foldl_commandStep :
    ∀ (ms : List Method) (acc : Registry) (q : String),
      lookupD (List.foldl commandStep acc ms) q =
        match lastMatch q ms with
        | Option.some m => Option.some m.handler
        | Option.none => lookupD acc q := by
  intro ms
  induction ms with
  | nil => intro acc q; rfl
  | cons m rest ih =>
    intro acc q
    rw [List.foldl_cons, ih]
    cases hr : lastMatch q rest with
    | some m2 => simp only [lastMatch, hr]
    | none =>
      simp only [lastMatch, hr]
      unfold commandStep
      by_cases h1 : strStartsWith m.name "_" = true
      · have hinc : matchesQ q m = false := by
          simp [matchesQ, includedB, h1]
        simp [h1, hinc]
      · have h1' : strStartsWith m.name "_" = false := by simpa using h1
        by_cases h2 : docVisible m.doc = true
        · rw [if_neg (by simp [h1']), if_pos h2, lookupD_dictInsert]
          by_cases hq : q = publicName m.name
          · subst hq
            have hinc : matchesQ (publicName m.name) m = true := by
              simp [matchesQ, includedB, h1', h2]
            simp [hinc]
          · have hbeq : (publicName m.name == q) = false :=
              beq_eq_false_iff_ne.mpr (fun h => hq h.symm)
            have hinc : matchesQ q m = false := by
              simp [matchesQ, hbeq]
            simp [hq, hinc]
        · have h2' : docVisible m.doc = false := by simpa using h2
          have hinc : matchesQ q m = false := by
            simp [matchesQ, includedB, h2']
          simp [h1', h2', hinc]

theorem includedB_iff (m : Method) :
    includedB m = true ↔
      (strStartsWith m.name "_" = false ∧
        ∃ d, m.doc = Option.some d ∧ d ≠ "" ∧ strStartsWith d "HIDDEN" = false) := by
  obtain ⟨mn, md, mh⟩ := m
  cases md with
  | none => simp [includedB, docVisible]
  | some d =>
    simp only [includedB, docVisible, Bool.and_eq_true, Bool.not_eq_true',
      Option.some.injEq]
    constructor
    · rintro ⟨h1, h2, h3⟩
      refine ⟨h1, d, rfl, ?_, h3⟩
      intro hd
      subst hd
      simp at h2
    · rintro ⟨h1, d2, hd2, hne, hh⟩
      subst hd2
      refine ⟨h1, ?_, hh⟩
      simpa using hne

/-! ### Behaviour of the Extender accumulation -/

theorem extender_step_list (c : List String) (v : ArgValue) :
    Extender_call (ExtState.mk (Dest.list c) Dest.none) v
      = ExtState.mk (Dest.list (c ++ contrib v)) Dest.none := by
  unfold Extender_call hasExtendMethod destElems contrib
  cases v with
  | scalar s => simp
  | seq ys =>
    cases ys with
    | nil => simp
    | cons y yt => simp
  | noneV => simp

theorem extender_first (d0 : Dest) (v : ArgValue) :
    Extender_call (ExtState.mk d0 d0) v
      = ExtState.mk (Dest.list (contrib v)) Dest.none := by
  unfold Extender_call contrib
  cases v with
  | scalar s => cases d0 <;> simp [hasExtendMethod]
  | seq ys => cases ys <;> cases d0 <;> simp [hasExtendMethod]
  | noneV => cases d0 <;> simp [hasExtendMethod]

theorem extender_foldl_list :
    ∀ (vs : List ArgValue) (c : List String),
      List.foldl Extender_call (ExtState.mk (Dest.list c) Dest.none) vs
        = ExtState.mk (Dest.list (c ++ contribConcat vs)) Dest.none := by
  intro vs
  induction vs with
  | nil => intro c; simp [contribConcat]
  | cons v vt ih =>
    intro c
    rw [List.foldl_cons, extender_step_list, ih]
    simp only [contribConcat, List.append_assoc]

theorem contribConcat_scalars :
    ∀ ss : List String, contribConcat (ss.map ArgValue.scalar) = ss := by
  intro ss
  induction ss with
  | nil => rfl
  | cons s st ih => simp [contribConcat, contrib, ih]

/-! ### The claims -/

/-- C1 (counterexample): a handler bound to boom in the demo registry
raises SystemExit with the nonzero code ERROR_GENERAL + 1; run returns
that code itself, which differs from the GeneralError constant, so the
claim that run returns GeneralError on nonzero SystemExit is false. -/
theorem C1_counterexample :
    hBoom [] = Option.some (Exc.systemExit (ERROR_GENERAL + 1))
    ∧ ERROR_GENERAL + 1 ≠ 0
    ∧ (run demoMs ["boom"]).retCode = ERROR_GENERAL + 1
    ∧ ERROR_GENERAL + 1 ≠ ERROR_GENERAL := by
  refine ⟨rfl, by decide, rfl, by decide⟩

/-- C1 (amended): when the resolved handler raises SystemExit carrying
code c, run returns c itself (not the GeneralError constant), echoing the
numeric code through an error line exactly when c is nonzero. -/
theorem C1_systemExit_returns_carried_code (ms : List Method) (tok : String)
    (rest : List String) (h : Handler) (c : Int)
    (hl : lookupD (_commands ms) tok = Option.some h)
    (hr : h rest = Option.some (Exc.systemExit c)) :
    (run ms (tok :: rest)).retCode = c
    ∧ (c ≠ 0 →
        OutEvent.errorMsg ("Exiting with code: " ++ toString c)
          ∈ (run ms (tok :: rest)).events)
    ∧ (c = 0 → (run ms (tok :: rest)).events = []) := by
  have hbody : runBody ms (tok :: rest) = Option.some (Exc.systemExit c) := by
    simp [runBody, hl, hr]
  unfold run
  rw [hbody]
  unfold handleExc
  by_cases hc : c = 0
  · subst hc
    simp
  · simp [hc]

set_option maxRecDepth 10000 in
/-- Witness for C1 at the concrete registry demoMs and the command boom. -/
theorem C1_systemExit_returns_carried_code_witness :
    (run demoMs ["boom"]).retCode = ERROR_GENERAL + 1
    ∧ (ERROR_GENERAL + 1 ≠ 0 →
        OutEvent.errorMsg ("Exiting with code: " ++ toString (ERROR_GENERAL + 1))
          ∈ (run demoMs ["boom"]).events)
    ∧ (ERROR_GENERAL + 1 = 0 → (run demoMs ["boom"]).events = []) :=
  C1_systemExit_returns_carried_code demoMs "boom" [] hBoom (ERROR_GENERAL + 1) rfl rfl

/-- C2: a handler raising KeyboardInterrupt makes run return the Success
outcome, whose value is 0; cancellation is never a failure code. -/
theorem C2_userInterrupt_success (ms : List Method) (tok : String)
    (rest : List String) (h : Handler)
    (hl : lookupD (_commands ms) tok = Option.some h)
    (hr : h rest = Option.some Exc.keyboardInterrupt) :
    (run ms (tok :: rest)).retCode = SUCCESS ∧ SUCCESS = 0 := by
  have hbody : runBody ms (tok :: rest) = Option.some Exc.keyboardInterrupt := by
    simp [runBody, hl, hr]
  refine ⟨?_, rfl⟩
  unfold run
  rw [hbody]
  rfl

set_option maxRecDepth 10000 in
/-- Witness for C2 at the concrete registry demoMs and command cancelme. -/
theorem C2_userInterrupt_success_witness :
    (run demoMs ["cancelme"]).retCode = SUCCESS ∧ SUCCESS = 0 :=
  C2_userInterrupt_success demoMs "cancelme" [] hInterrupt rfl rfl

set_option maxRecDepth 10000 in
/-- C3 (counterexample): for the unknown token biuld against a registry
containing build, run returns GeneralError but emits no info-level output
at all, while the _print_similar helper (which the claim says run invokes)
would produce nonempty, all info-level output: run does not invoke the
fuzzy command suggestion. -/
theorem C3_counterexample :
    lookupD (_commands demoMs) "biuld" = Option.none
    ∧ (run demoMs ["biuld"]).retCode = ERROR_GENERAL
    ∧ (run demoMs ["biuld"]).events.any isInfo = false
    ∧ _print_similar demoMs "biuld" ≠ []
    ∧ (_print_similar demoMs "biuld").all isInfo = true := by
  refine ⟨rfl, rfl, rfl, by decide, by decide⟩

/-- C3 (amended): for every token absent from the registry, run returns
GeneralError (the lookup KeyError lands in the generic except clause), and
run emits no info-level hint: the fuzzy suggestion is never invoked. -/
theorem C3_unknown_command_general_error (ms : List Method) (tok : String)
    (rest : List String) (hl : lookupD (_commands ms) tok = Option.none) :
    (run ms (tok :: rest)).retCode = ERROR_GENERAL
    ∧ (run ms (tok :: rest)).events.any isInfo = false := by
  have hbody : runBody ms (tok :: rest) = Option.some Exc.otherError := by
    simp [runBody, hl]
  unfold run
  rw [hbody]
  exact ⟨rfl, rfl⟩

set_option maxRecDepth 10000 in
/-- Witness for C3 at the concrete registry demoMs and token biuld. -/
theorem C3_unknown_command_general_error_witness :
    (run demoMs ["biuld"]).retCode = ERROR_GENERAL
    ∧ (run demoMs ["biuld"]).events.any isInfo = false :=
  C3_unknown_command_general_error demoMs "biuld" [] rfl

/-- C4 (counterexample): one single occurrence of an accumulate flag whose
incoming value is the two-element sequence a, b leaves a destination of
length 2, so the destination length does not equal the number of
occurrences (1). -/
theorem C4_counterexample :
    (List.foldl Extender_call (ExtState.mk Dest.none Dest.none)
        [ArgValue.seq ["a", "b"]]).dest = Dest.list ["a", "b"]
    ∧ [ArgValue.seq ["a", "b"]].length = 1
    ∧ (["a", "b"] : List String).length = 2 := by
  refine ⟨rfl, rfl, rfl⟩

/-- C4 (amended): starting from any default, a nonempty run of Extender
occurrences leaves the destination holding exactly the concatenation of
each occurrence's contribution in encounter order (a scalar appends one
element, a sequence extends with all its elements, a None value adds
nothing); when every occurrence carries a scalar the length equals the
number of occurrences. -/
theorem C4_extender_accumulates_contributions (d0 : Dest) (v : ArgValue)
    (vs : List ArgValue) (s : String) (ss : List String) :
    (List.foldl Extender_call (ExtState.mk d0 d0) (v :: vs)).dest
      = Dest.list (contrib v ++ contribConcat vs)
    ∧ (List.foldl Extender_call (ExtState.mk d0 d0) ((s :: ss).map ArgValue.scalar)).dest
      = Dest.list (s :: ss)
    ∧ ((s :: ss).map ArgValue.scalar).length = (s :: ss).length := by
  refine ⟨?_, ?_, by simp⟩
  · rw [List.foldl_cons, extender_first, extender_foldl_list]
  · rw [List.map_cons, List.foldl_cons, extender_first, extender_foldl_list,
      contribConcat_scalars]
    simp [contrib]

/-- C5 (counterexample): with a non-None declared default, a second
occurrence arriving while the destination holds a non-default, non-None
value does not fail: OnceArgument silently accepts the later value. -/
theorem C5_counterexample :
    (Dest.str "earlier" ≠ Dest.none)
    ∧ (Dest.str "earlier" ≠ Dest.str "default")
    ∧ OnceArgument_call "-r" (Dest.str "default") (Dest.str "earlier") "later"
        = Except.ok (Dest.str "later") := by
  refine ⟨by decide, by decide, rfl⟩

/-- C5 (amended): OnceArgument fails with the usage error exactly when the
destination is already non-None and the action's default is None; a single
occurrence (the destination still holding the default) always succeeds and
stores exactly the supplied value. -/
theorem C5_once_behavior (o : String) (dflt dest : Dest) (v : String) :
    ((OnceArgument_call o dflt dest v
        = Except.error (o ++ " can only be specified once"))
      ↔ (dest ≠ Dest.none ∧ dflt = Dest.none))
    ∧ OnceArgument_call o dflt dflt v = Except.ok (Dest.str v) := by
  constructor
  · unfold OnceArgument_call
    by_cases h : dest ≠ Dest.none ∧ dflt = Dest.none
    · simp [h]
    · simp [h]
  · unfold OnceArgument_call
    rw [if_neg]
    rintro ⟨h1, h2⟩
    exact h1 h2

/-- C9: building the registry twice from the same candidate container
yields the same key set and the same handler binding for every name. -/
theorem C9_registry_idempotent (ms : List Method) :
    keys (_commands ms) = keys (_commands ms)
    ∧ ∀ q : String, lookupD (_commands ms) q = lookupD (_commands ms) q :=
  ⟨rfl, fun _ => rfl⟩

/-- C10: when the declared default is not None, the duplicate-occurrence
check of OnceArgument never fires: any occurrence, also a repeated one,
silently stores the incoming value. -/
theorem C10_once_nonNone_default_overwrites (o : String) (dflt dest : Dest)
    (v : String) (h : dflt ≠ Dest.none) :
    OnceArgument_call o dflt dest v = Except.ok (Dest.str v) := by
  unfold OnceArgument_call
  rw [if_neg]
  rintro ⟨_, h2⟩
  exact h h2

/-- Witness for C10: a string default, an already-set destination, and a
second value that silently overwrites. -/
theorem C10_once_nonNone_default_overwrites_witness :
    OnceArgument_call "-r" (Dest.str "default") (Dest.str "earlier") "later"
      = Except.ok (Dest.str "later") :=
  C10_once_nonNone_default_overwrites "-r" (Dest.str "default") (Dest.str "earlier")
    "later" (by decide)

/-- C6: under distinct public names, a candidate's handler is bound in the
registry under its public name exactly when the candidate name does not
start with the underscore marker and the docstring is present, non-empty
and not starting with HIDDEN; and export_pkg is exposed as export-pkg. -/
theorem C6_registry_membership (ms : List Method)
    (hnd : (ms.map (fun m => publicName m.name)).Nodup) :
    (∀ m ∈ ms,
      (lookupD (_commands ms) (publicName m.name) = Option.some m.handler
        ↔ (strStartsWith m.name "_" = false
            ∧ ∃ d, m.doc = Option.some d ∧ d ≠ ""
                ∧ strStartsWith d "HIDDEN" = false)))
    ∧ publicName "export_pkg" = "export-pkg" := by
  have hinj := List.inj_on_of_nodup_map hnd
  refine ⟨?_, rfl⟩
  intro m hm
  rw [← includedB_iff]
  unfold _commands
  rw [lookupD_foldl_commandStep]
  constructor
  · intro hlk
    by_cases hinc : includedB m = true
    · exact hinc
    · exfalso
      have hincf : includedB m = false := by simpa using hinc
      have hnone : lastMatch (publicName m.name) ms = Option.none := by
        apply lastMatch_none
        intro m2 hm2
        by_cases heq : publicName m2.name = publicName m.name
        · have hmm : m2 = m := hinj hm2 hm heq
          subst hmm
          simp [matchesQ, hincf]
        · have hbeq : (publicName m2.name == publicName m.name) = false :=
            beq_eq_false_iff_ne.mpr heq
          simp [matchesQ, hbeq]
      rw [hnone] at hlk
      simp [lookupD] at hlk
  · intro hinc
    have hmq : matchesQ (publicName m.name) m = true := by
      simp [matchesQ, hinc]
    obtain ⟨m2, h1, h2, h3⟩ := lastMatch_mem ms (publicName m.name) m hm hmq
    have hpn : publicName m2.name = publicName m.name := by
      simp only [matchesQ, Bool.and_eq_true, beq_iff_eq] at h3
      exact h3.2
    have hmm : m2 = m := hinj h2 hm hpn
    subst hmm
    rw [h1]

set_option maxRecDepth 10000 in
/-- Witness for C6: in the demo registry, export_pkg is bound under the
hyphenated public name export-pkg. -/
theorem C6_registry_membership_witness :
    lookupD (_commands demoMs) "export-pkg" = Option.some hNone := by
  have h := (C6_registry_membership demoMs (by decide)).1
    (Method.mk "export_pkg" (Option.some "Export docs") hNone)
    (by
      unfold demoMs
      exact List.mem_cons_of_mem _ (List.mem_cons_of_mem _ (List.mem_cons_self _ _)))
  have h2 := h.mpr ⟨rfl, "Export docs", rfl, by decide, rfl⟩
  rwa [show publicName "export_pkg" = "export-pkg" by decide] at h2

/-! ### Properties of the suggestion selection -/

theorem gcm_mem_scored (word : String) (possibilities : List String) (cn cd : Nat) :
    ∀ p ∈ possibilities.filterMap
        (fun x => if cn * (score x word).2 ≤ cd * (score x word).1
          then Option.some (score x word, x) else Option.none),
      p.1 = score p.2 word ∧ cn * (score p.2 word).2 ≤ cd * (score p.2 word).1
        ∧ p.2 ∈ possibilities := by
  intro p hp
  rcases List.mem_filterMap.mp hp with ⟨x, hx, hfx⟩
  by_cases hcond : cn * (score x word).2 ≤ cd * (score x word).1
  · rw [if_pos hcond] at hfx
    obtain rfl : (score x word, x) = p := Option.some.inj hfx
    exact ⟨rfl, hcond, hx⟩
  · rw [if_neg hcond] at hfx
    exact Option.noConfusion hfx

theorem gcm_length (word : String) (possibilities : List String) (n cn cd : Nat) :
    (get_close_matches word possibilities n cn cd).length ≤ n := by
  simp only [get_close_matches, List.length_map, List.length_take]
  exact min_le_left _ _

theorem gcm_mem (word : String) (possibilities : List String) (n cn cd : Nat) :
    ∀ x ∈ get_close_matches word possibilities n cn cd,
      cn * (score x word).2 ≤ cd * (score x word).1 ∧ x ∈ possibilities := by
  intro x hx
  simp only [get_close_matches] at hx
  rcases List.mem_map.mp hx with ⟨p, hp, rfl⟩
  have hps := mem_sortB.mp (List.mem_of_mem_take hp)
  obtain ⟨h1, h2, h3⟩ := gcm_mem_scored word possibilities cn cd p hps
  exact ⟨h2, h3⟩

theorem gcm_sorted (word : String) (possibilities : List String) (n cn cd : Nat) :
    List.Pairwise (fun x y => ratioQ y word ≤ ratioQ x word)
      (get_close_matches word possibilities n cn cd) := by
  simp only [get_close_matches]
  have hsorted : List.Pairwise (fun p q => leDesc p q = true)
      (sortB leDesc (possibilities.filterMap
        (fun x => if cn * (score x word).2 ≤ cd * (score x word).1
          then Option.some (score x word, x) else Option.none))) := by
    refine pairwise_sortB leDesc _ ?_ ?_
    · intro x _ y _
      unfold leDesc
      rcases Nat.le_total (y.1.1 * x.1.2) (x.1.1 * y.1.2) with h | h
      · exact Or.inl (by simpa using h)
      · exact Or.inr (by simpa using h)
    · intro x _ y hy z _ hxy hyz
      obtain ⟨hy1, _, _⟩ := gcm_mem_scored word possibilities cn cd y hy
      simp only [leDesc, decide_eq_true_eq] at hxy hyz ⊢
      have hyd : 0 < y.1.2 := by
        rw [hy1]
        exact score_den_pos y.2 word
      exact crossLe_trans hyd hxy hyz
  have htaken : List.Pairwise (fun p q => leDesc p q = true)
      ((sortB leDesc (possibilities.filterMap
        (fun x => if cn * (score x word).2 ≤ cd * (score x word).1
          then Option.some (score x word, x) else Option.none))).take n) :=
    hsorted.sublist (List.take_sublist n _)
  rw [List.pairwise_map]
  refine htaken.imp_of_mem ?_
  intro p q hp hq hle
  obtain ⟨hp1, _, _⟩ := gcm_mem_scored word possibilities cn cd p
    (mem_sortB.mp (List.mem_of_mem_take hp))
  obtain ⟨hq1, _, _⟩ := gcm_mem_scored word possibilities cn cd q
    (mem_sortB.mp (List.mem_of_mem_take hq))
  simp only [leDesc, decide_eq_true_eq] at hle
  rw [hp1, hq1] at hle
  have hpd : 0 < (score p.2 word).2 := score_den_pos p.2 word
  have hqd : 0 < (score q.2 word).2 := score_den_pos q.2 word
  exact (crossLe_iff_div_le hpd hqd).mp hle

/-- C7: for every unknown token, the suggestion selection of
_print_similar picks at most 5 registered names, each of similarity at
least 0.75 to the token, in descending similarity order; an empty
selection is valid and produces no output. -/
theorem C7_similar_selection (ms : List Method) (command : String) :
    (similarMatches ms command).length ≤ 5
    ∧ (∀ x ∈ similarMatches ms command, (3 : ℚ)/4 ≤ ratioQ x command)
    ∧ List.Pairwise (fun x y => ratioQ y command ≤ ratioQ x command)
        (similarMatches ms command)
    ∧ (∀ x ∈ similarMatches ms command, x ∈ keys (_commands ms))
    ∧ (similarMatches ms command = [] → _print_similar ms command = []) := by
  refine ⟨gcm_length command (keys (_commands ms)) 5 3 4, ?_, ?_, ?_, ?_⟩
  · intro x hx
    obtain ⟨hcut, _⟩ := gcm_mem command (keys (_commands ms)) 5 3 4 x hx
    have hden : 0 < (score x command).2 := score_den_pos x command
    have hcross : 3 * (score x command).2 ≤ (score x command).1 * 4 := by
      calc 3 * (score x command).2 ≤ 4 * (score x command).1 := hcut
        _ = (score x command).1 * 4 := Nat.mul_comm _ _
    have hq := (crossLe_iff_div_le hden (by norm_num : (0:Nat) < 4)).mp hcross
    unfold ratioQ
    exact_mod_cast hq
  · exact gcm_sorted command (keys (_commands ms)) 5 3 4
  · intro x hx
    exact (gcm_mem command (keys (_commands ms)) 5 3 4 x hx).2
  · intro hempty
    unfold _print_similar
    simp [hempty]

/-- C8: the JSON serialization of Command.inspect renders a set as the
sorted list of its elements (sorted, and a permutation of the original
ones), resolves a relative output path against the working directory, and
uses an absolute path as given. -/
theorem C8_json_output (xs : List String) (cwd p : String) :
    encode (PyVal.pset xs) = JVal.jarr ((sortB strLe xs).map JVal.jstr)
    ∧ List.Pairwise (fun a b => strLe a b = true) (sortB strLe xs)
    ∧ List.Perm (sortB strLe xs) xs
    ∧ (isabs p = true → json_output_file cwd p = p)
    ∧ (isabs p = false → json_output_file cwd p = joinPath cwd p) := by
  refine ⟨rfl, ?_, sortB_perm strLe xs, ?_, ?_⟩
  · exact pairwise_sortB strLe xs (fun x _ y _ => strLe_total x y)
      (fun x _ y _ z _ hxy hyz => strLe_trans hxy hyz)
  · intro h
    simp [json_output_file, h]
  · intro h
    simp [json_output_file, h]

set_option maxRecDepth 10000 in
/-- The spec's concrete suggestion example, checked against the model:
the registered name build is suggested for the mistyped token biuld, and
its similarity score is 8/10. -/
theorem demo_similar_biuld :
    similarMatches demoMs "biuld" = ["build"] ∧ score "build" "biuld" = (8, 10) := by
  refine ⟨by decide, by decide⟩
